import Mathlib

/-!
Verification of the paralegal-compiler policy-language front end.

The parsers below are a shallow embedding of `src/compile/src/parsers.rs`,
which is written against the `nom` combinator library.  A `nom` parser over
`&str` either succeeds with a remainder and a value or fails with a
recoverable error (no `cut`/`Failure` is used in this code base), so a parser
is modelled as `List Char → Option (List Char × α)`.  The `context`
combinator only decorates errors and is dropped.  Inputs are lists of
characters; `Rust`'s `char::is_alphabetic` is modelled by `Char.isAlpha`
(the policies and tests only use ASCII).
-/

namespace Paralegal

/-- Result type of a nom parser: remainder plus parsed value, or failure. -/
abbrev P (α : Type) : Type := List Char → Option (List Char × α)

/-- nom `tag`: match an exact string prefix. -/
def ptag (t : List Char) : P (List Char) := fun s =>
  if s.take t.length = t then some (s.drop t.length, t) else none

/-- nom `take_while1`: longest (possibly empty is an error) prefix satisfying `p`. -/
def take_while1 (p : Char → Bool) : P (List Char) := fun s =>
  match s.takeWhile p with
  | [] => none
  | c :: cs => some (s.dropWhile p, c :: cs)

/-- nom `char`: match one exact character. -/
def pchar (c : Char) : P Char := fun s =>
  match s with
  | [] => none
  | x :: xs => if x = c then some (xs, c) else none

/-- nom `opt`: always succeeds, wrapping the inner result in `Option`. -/
def popt (p : P α) : P (Option α) := fun s =>
  match p s with
  | none => some (s, none)
  | some (r, a) => some (r, some a)

/-- nom `not`: succeeds without consuming exactly when the inner parser fails. -/
def pnot (p : P α) : P Unit := fun s =>
  match p s with
  | none => some (s, ())
  | some _ => none

/-- nom `alt` for two alternatives (nested for longer `alt` tuples). -/
def palt (p q : P α) : P α := fun s =>
  match p s with
  | none => q s
  | some x => some x

/-- Map over a parser result (`nom` does this via `Ok((rem, f(res)))`). -/
def pmap (p : P α) (f : α → β) : P β := fun s =>
  match p s with
  | none => none
  | some (r, a) => some (r, f a)

/-- nom `tuple` of two parsers, run in sequence. -/
def tuple2 (p : P α) (q : P β) : P (α × β) := fun s =>
  match p s with
  | none => none
  | some (r₁, a) =>
    match q r₁ with
    | none => none
    | some (r₂, b) => some (r₂, (a, b))

/-- nom `tuple` of three parsers. -/
def tuple3 (p : P α) (q : P β) (r : P γ) : P (α × β × γ) :=
  pmap (tuple2 p (tuple2 q r)) (fun x => (x.1, x.2.1, x.2.2))

/-- nom `tuple` of four parsers. -/
def tuple4 (p : P α) (q : P β) (r : P γ) (t : P δ) : P (α × β × γ × δ) :=
  pmap (tuple2 p (tuple2 q (tuple2 r t))) (fun x => (x.1, x.2.1, x.2.2.1, x.2.2.2))

/-- nom `delimited`: run three parsers, keep the middle result. -/
def delimited (a : P α) (b : P β) (c : P γ) : P β :=
  pmap (tuple3 a b c) (fun x => x.2.1)

/-- nom `terminated`: run two parsers, keep the first result. -/
def terminated (a : P α) (b : P β) : P α :=
  pmap (tuple2 a b) (fun x => x.1)

/-- nom `separated_pair`: run three parsers, keep the outer two results. -/
def separated_pair (a : P α) (b : P β) (c : P γ) : P (α × γ) :=
  pmap (tuple3 a b c) (fun x => (x.1, x.2.2))

/-- nom `recognize`: run a parser and return the consumed input slice. -/
def recognize (p : P α) : P (List Char) := fun s =>
  match p s with
  | none => none
  | some (r, _) => some (r, s.take (s.length - r.length))

/-- Loop of nom `many1` after the first iteration.  nom stops on the first
recoverable error and errors out if an iteration consumes no input (the
`i1 == i` check preventing infinite loops); the fuel, always instantiated
with more than the remaining length, makes the recursion structural. -/
def many1Go (p : P α) : Nat → List Char → Option (List Char × List α)
  | 0, _ => none
  | fuel + 1, s =>
    match p s with
    | none => some (s, [])
    | some (r, a) =>
      if r.length < s.length then
        match many1Go p fuel r with
        | none => none
        | some (r₂, as) => some (r₂, a :: as)
      else none

/-- nom `many1`: one or more repetitions of `p`. -/
def many1 (p : P α) : P (List α) := fun s =>
  match p s with
  | none => none
  | some (r, a) =>
    if r.length < s.length then
      match many1Go p (r.length + 1) r with
      | none => none
      | some (r₂, as) => some (r₂, a :: as)
    else none

/-- nom `all_consuming`: succeed only when the whole input was consumed. -/
def all_consuming (p : P α) : P α := fun s =>
  match p s with
  | none => none
  | some (r, a) => if r = [] then some (r, a) else none

/-- Whitespace recognized by nom `multispace0`/`multispace1`. -/
def isMultispace (c : Char) : Bool :=
  c = ' ' || c = '\t' || c = '\r' || c = '\n'

/-- nom `multispace0`: zero or more whitespace characters. -/
def multispace0 : P (List Char) := fun s =>
  some (s.dropWhile isMultispace, s.takeWhile isMultispace)

/-- nom `multispace1`: one or more whitespace characters. -/
def multispace1 : P (List Char) := take_while1 isMultispace

/-! ### The AST (data model of `src/compile/src/lib.rs` as used by `parsers.rs`)

`parsers.rs` imports `ASTNode, Marker, Operator, TwoNodeObligation, Policy,
PolicyScope, Quantifier, ThreeVarObligation, TwoVarObligation, Variable,
VariableBinding, VariableClause` from the crate root.  The checked-in
`lib.rs` is an older iteration (its `ASTNode` lacks `VarIntroduction` and
`Implies`, and it has no `Operator`); the shapes below follow what
`parsers.rs` constructs, which pins every constructor and field. -/

/-- `Quantifier`: governs existential vs. universal candidate combination. -/
inductive Quantifier : Type
  | some
  | all
deriving DecidableEq, Repr

/-- `PolicyScope`: `Always` or `Sometimes`. -/
inductive PolicyScope : Type
  | always
  | sometimes
deriving DecidableEq, Repr

/-- `Variable`: in `parsers.rs` a borrowed string slice. -/
abbrev Variable : Type := List Char

/-- `Marker`: an opaque string tag. -/
abbrev Marker : Type := List Char

/-- `VariableBinding { quantifier, variable, marker }` (the `variable` field
is written `variable'` because `variable` is a Lean keyword). -/
structure VariableBinding : Type where
  quantifier : Quantifier
  variable' : Variable
  marker : Marker
deriving DecidableEq, Repr

/-- `ASTNode`: the policy AST.  `And`/`Or`/`Implies` box a
`TwoNodeObligation { src, dest }`; that pair is inlined as two child
arguments here.  `VarIntroduction` boxes a `VariableClause { binding, body }`,
likewise inlined. -/
inductive ASTNode : Type
  | flowsTo (src dest : Variable)
  | controlFlow (src dest : Variable)
  | through (src dest checkpoint : Variable)
  | and (src dest : ASTNode)
  | or (src dest : ASTNode)
  | implies (src dest : ASTNode)
  | varIntroduction (binding : VariableBinding) (body : ASTNode)
deriving DecidableEq, Repr

/-- `Operator`: boolean connective between operands (reconstructed from its
use in `parsers.rs`, where `Operator::And/Or/Implies` select the `ASTNode`
constructor; the checked-in `lib.rs` predates this type). -/
inductive Operator : Type
  | and
  | or
  | implies
deriving DecidableEq, Repr

/-- `Policy { scope, body }` as built by `parse`. -/
structure Policy : Type where
  scope : PolicyScope
  body : ASTNode
deriving DecidableEq, Repr

/-- `impl From<&str> for Operator` as used by the `operator` parser:
the only inputs are the three keyword tags. -/
def operatorFrom (t : List Char) : Operator :=
  if t = "and".toList then .and
  else if t = "or".toList then .or
  else .implies

/-- `impl From<&str> for PolicyScope` as used by the `scope` parser:
the only inputs are `"always"` and `"sometimes"`. -/
def policyScopeFrom (t : List Char) : PolicyScope :=
  if t = "always".toList then .always else .sometimes

/-! ### Terminal parsers (`parsers.rs` lines 18–118) -/

/-- `static FLOWS_TO_TAG`. -/
def FLOWS_TO_TAG : List Char := "flows to".toList

/-- `static CONTROL_FLOW_TAG`. -/
def CONTROL_FLOW_TAG : List Char := "has control flow influence on".toList

/-- `fn colon`. -/
def colon : P (List Char) := delimited multispace0 (ptag ":".toList) multispace0

/-- `fn flows_to`. -/
def flows_to : P (List Char) := delimited multispace1 (ptag FLOWS_TO_TAG) multispace1

/-- `fn control_flow`. -/
def control_flow : P (List Char) := delimited multispace1 (ptag CONTROL_FLOW_TAG) multispace1

/-- `fn through`. -/
def through : P (List Char) := delimited multispace1 (ptag "through".toList) multispace1

/-- `fn always`. -/
def always : P (List Char) := delimited multispace0 (ptag "always".toList) colon

/-- `fn sometimes`. -/
def sometimes : P (List Char) := delimited multispace0 (ptag "sometimes".toList) colon

/-- `fn and` (named `kw_and` here; `and` clashes with `Bool.and`). -/
def kw_and : P (List Char) := delimited multispace0 (ptag "and".toList) multispace1

/-- `fn or`. -/
def kw_or : P (List Char) := delimited multispace0 (ptag "or".toList) multispace1

/-- `fn implies`. -/
def kw_implies : P (List Char) := delimited multispace0 (ptag "implies".toList) multispace1

/-- `fn open_paren`. -/
def open_paren : P (List Char) := delimited multispace0 (ptag "(".toList) multispace0

/-- `fn close_paren`. -/
def close_paren : P (List Char) := delimited multispace0 (ptag ")".toList) multispace0

/-- `fn some` (named `someQ` here to avoid `Option.some`). -/
def someQ : P Quantifier :=
  pmap (delimited multispace0 (ptag "some".toList) multispace1) (fun _ => Quantifier.some)

/-- `fn all`. -/
def allQ : P Quantifier :=
  pmap (delimited multispace0 (ptag "all".toList) multispace1) (fun _ => Quantifier.all)

/-- `fn quantifier`. -/
def quantifier : P Quantifier := palt someQ allQ

/-- The repeated unit inside `alphabetic_w_underscores`:
`tuple((take_while1(char::is_alphabetic), opt(char('_'))))`. -/
def identChunk : P (List Char × Option Char) :=
  tuple2 (take_while1 Char.isAlpha) (popt (pchar '_'))

/-- `fn alphabetic_w_underscores`:
`recognize(many1(tuple((take_while1(char::is_alphabetic), opt(char('_'))))))`. -/
def alphabetic_w_underscores : P (List Char) :=
  recognize (many1 identChunk)

/-- `fn marker`. -/
def marker : P Marker :=
  delimited (ptag "\"".toList) alphabetic_w_underscores (ptag "\"".toList)

/-- `fn variable` (named `pvariable` here; `variable` is a Lean keyword). -/
def pvariable : P Variable := alphabetic_w_underscores

/-! ### Leaf relation parsers (`parsers.rs` lines 120–191) -/

/-- `fn flows_to_expr`. -/
def flows_to_expr : P ASTNode :=
  pmap (tuple3 pvariable flows_to pvariable)
    (fun x => ASTNode.flowsTo x.1 x.2.2)

/-- `fn through_expr`: rewrites a parsed `flows_to_expr` plus checkpoint into
a `Through` node.  The Rust code panics in the non-`FlowsTo` match arm
("shouldn't reach this case"); that arm is unreachable because
`flows_to_expr` only builds `FlowsTo`, and is modelled as failure. -/
def through_expr : P ASTNode := fun s =>
  match separated_pair flows_to_expr through pvariable s with
  | none => none
  | some (r, (ft, checkpoint)) =>
    match ft with
    | ASTNode.flowsTo src dest => some (r, ASTNode.through src dest checkpoint)
    | _ => none

/-- `fn flows_to_or_through_expr`: first try the `through` extension, else a
bare `flows to` guarded by a negative lookahead for the `through` keyword. -/
def flows_to_or_through_expr : P ASTNode :=
  palt through_expr (terminated flows_to_expr (pnot through))

/-- `fn control_flow_expr`. -/
def control_flow_expr : P ASTNode :=
  pmap (tuple3 pvariable control_flow pvariable)
    (fun x => ASTNode.controlFlow x.1 x.2.2)

/-- `fn operator`. -/
def operator : P Operator :=
  pmap (palt kw_and (palt kw_or kw_implies)) operatorFrom

/-- `fn scope`. -/
def scope : P PolicyScope :=
  pmap (palt always sometimes) policyScopeFrom

/-- The `match operator { And/Or/Implies => ... }` shared by the joined
parsers: build the AST node for an operator and its two operands. -/
def mkOperatorNode (op : Operator) (src dest : ASTNode) : ASTNode :=
  match op with
  | .and => ASTNode.and src dest
  | .or => ASTNode.or src dest
  | .implies => ASTNode.implies src dest

/-! ### Recursive grammar rules (`parsers.rs` lines 193–330)

The six rules below are mutually recursive in the Rust source
(`joined_bodies ↔ body`, `joined_clauses ↔ variable_clause`,
`joined_variable_clauses ↔ exprs`, with the later clusters calling the
earlier ones).  Recursion is made structural with a fuel parameter: every
rule fails at fuel `0` and passes `fuel` to each grammar-rule call at
`fuel + 1`.  Every recursive cycle in the Rust grammar consumes at least one
input character per unfolding, so a fuel of `input length + 1` (used by the
top-level wrappers below) is never exhausted; general theorems quantify over
the fuel. -/

mutual

/-- `fn joined_bodies`:
`tuple((alt((flows_to_or_through_expr, control_flow_expr)), operator, body))`. -/
def joined_bodies : Nat → P ASTNode
  | 0 => fun _ => none
  | fuel + 1 => fun s =>
    match tuple3 (palt flows_to_or_through_expr control_flow_expr) operator (body fuel) s with
    | none => none
    | some (r, (src, op, dest)) => some (r, mkOperatorNode op src dest)

/-- `fn body`: `alt((joined_bodies, flows_to_or_through_expr, control_flow_expr))`. -/
def body : Nat → P ASTNode
  | 0 => fun _ => none
  | fuel + 1 => fun s =>
    palt (joined_bodies fuel) (palt flows_to_or_through_expr control_flow_expr) s

/-- `fn joined_clauses`:
`tuple((alt((variable_clause, body)), operator, alt((joined_clauses, variable_clause, body))))`. -/
def joined_clauses : Nat → P ASTNode
  | 0 => fun _ => none
  | fuel + 1 => fun s =>
    match tuple3 (palt (variable_clause fuel) (body fuel)) operator
        (palt (joined_clauses fuel) (palt (variable_clause fuel) (body fuel))) s with
    | none => none
    | some (r, (src, op, dest)) => some (r, mkOperatorNode op src dest)

/-- `fn variable_clause`:
`tuple((quantifier, terminated(variable, colon), terminated(marker, open_paren),
terminated(alt((joined_clauses, variable_clause, body)), terminated(close_paren, multispace0))))`. -/
def variable_clause : Nat → P ASTNode
  | 0 => fun _ => none
  | fuel + 1 => fun s =>
    match tuple4 quantifier (terminated pvariable colon) (terminated marker open_paren)
        (terminated (palt (joined_clauses fuel) (palt (variable_clause fuel) (body fuel)))
          (terminated close_paren multispace0)) s with
    | none => none
    | some (r, (q, v, m, bd)) =>
      some (r, ASTNode.varIntroduction ⟨q, v, m⟩ bd)

/-- `fn joined_variable_clauses`: `tuple((variable_clause, operator, exprs))` —
the restrictive top-level production whose operands must all be clauses. -/
def joined_variable_clauses : Nat → P ASTNode
  | 0 => fun _ => none
  | fuel + 1 => fun s =>
    match tuple3 (variable_clause fuel) operator (exprs fuel) s with
    | none => none
    | some (r, (src, op, dest)) => some (r, mkOperatorNode op src dest)

/-- `fn exprs`: `alt((joined_variable_clauses, variable_clause))`. -/
def exprs : Nat → P ASTNode
  | 0 => fun _ => none
  | fuel + 1 => fun s =>
    palt (joined_variable_clauses fuel) (variable_clause fuel) s

end

/-- `fn parse`: `all_consuming(tuple((scope, exprs)))` followed by the
`Policy { scope, body }` construction. -/
def parse (s : List Char) : Option (List Char × Policy) :=
  match all_consuming (tuple2 scope (exprs (s.length + 1))) s with
  | none => none
  | some (r, (sc, bd)) => some (r, { scope := sc, body := bd })

/-- `exprs` run with adequate fuel for its input, as `parse` runs it. -/
def exprsTop (s : List Char) : Option (List Char × ASTNode) :=
  exprs (s.length + 1) s

/-- `body` run with adequate fuel for its input. -/
def bodyTop (s : List Char) : Option (List Char × ASTNode) :=
  body (s.length + 1) s

/-- `variable_clause` run with adequate fuel for its input. -/
def variable_clauseTop (s : List Char) : Option (List Char × ASTNode) :=
  variable_clause (s.length + 1) s

/-! ### Spec-level identifier shape (for comparison with `alphabetic_w_underscores`)

Written from the spec's words (§4.1): "one or more maximal runs of
alphabetic characters separated by single underscores (a trailing underscore
is accepted; two consecutive underscores are rejected; a leading underscore
is rejected)". -/

/-- A character an identifier may contain: a letter or an underscore. -/
def identCharOK (c : Char) : Bool := c.isAlpha || c = '_'

/-- No two consecutive underscores anywhere in the string. -/
def noConsecUnderscores : List Char → Bool
  | [] => true
  | [_] => true
  | a :: b :: rest => !(a = '_' && b = '_') && noConsecUnderscores (b :: rest)

/-- Spec-level identifier shape: nonempty, starts with a letter, contains
only letters and underscores, and has no two consecutive underscores.
Equivalently, one or more runs of letters separated by single underscores,
with a trailing underscore allowed. -/
def specIdent (s : List Char) : Bool :=
  (match s with
   | [] => false
   | c :: _ => c.isAlpha)
  && s.all identCharOK
  && noConsecUnderscores s

/-- A context in which an identifier ends: end of input, or a character
that can extend neither a letter run nor an underscore separator. -/
def identBoundary : List Char → Bool
  | [] => true
  | c :: _ => !c.isAlpha && !(c = '_')

/-! ### Evaluator model (claim C4)

Modelled from the spec: the repository contains no evaluator under `src/` —
`src/compile/src/lib.rs` only maps `Quantifier::Some`/`All` to the iterator
calls `any`/`all` of the emitted policy (`func_call`, lines 153–159), and the
short-circuiting candidate iteration itself lives in the emitted code
(`src/compile/compiled-policy.rs`) and the external `paralegal_policy`
library.  The evaluator below follows spec §4.6: a pure tree walk over a
flow-graph context, threading an environment from variable names to bound
graph nodes, returning `Satisfied`/`Violated(witness)`, with unbound
variables a distinct fatal error (modelled as `none`).  Recursion is made
structural with a fuel parameter (one unit per `VarIntroduction` unfolding);
`evalPolicy` supplies fuel exceeding the AST height. -/

/-- A graph node handle supplied by the external flow-graph context. -/
abbrev GraphNode : Type := Nat

/-- The flow-graph context contract (spec §6): candidate lookup by marker and
the reachability / control-influence / causal-ordering predicates. -/
structure EvalCtx : Type where
  markedNodes : Marker → List GraphNode
  flowsToData : GraphNode → GraphNode → Bool
  ctrlInfluence : GraphNode → GraphNode → Bool
  causallyBetween : GraphNode → GraphNode → GraphNode → Bool

/-- Diagnostic witness of a `Violated` verdict (spec §4.6/§7): the failing
candidate node, or the variable/marker whose candidate set was exhausted. -/
inductive Witness : Type
  | failingNode (n : GraphNode)
  | noCandidate (v : Variable) (m : Marker)
deriving DecidableEq, Repr

/-- Evaluation verdict: a violation is a normal outcome carrying a witness. -/
inductive Verdict : Type
  | satisfied
  | violated (w : Witness)
deriving DecidableEq, Repr

/-- Environment lookup (`variable name → bound graph node`). -/
def envLookup (env : List (Variable × GraphNode)) (v : Variable) : Option GraphNode :=
  match env with
  | [] => none
  | (w, n) :: rest => if w = v then some n else envLookup rest v

/-- Conjunction over the candidate list for an `All` clause: short-circuits
to `Violated` at the first failing candidate, reporting that candidate as
the witness; a fatal error in a candidate propagates. -/
def runAll (evalBody : GraphNode → Option Verdict) : List GraphNode → Option Verdict
  | [] => some .satisfied
  | c :: rest =>
    match evalBody c with
    | some .satisfied => runAll evalBody rest
    | some (.violated _) => some (.violated (.failingNode c))
    | none => none

/-- Disjunction over the candidate list for a `Some` clause: short-circuits
to `Satisfied` at the first succeeding candidate; if the candidate set is
exhausted with none succeeding, `Violated` reporting the variable/marker. -/
def runSome (v : Variable) (m : Marker) (evalBody : GraphNode → Option Verdict) :
    List GraphNode → Option Verdict
  | [] => some (.violated (.noCandidate v m))
  | c :: rest =>
    match evalBody c with
    | some .satisfied => some .satisfied
    | some (.violated _) => runSome v m evalBody rest
    | none => none

/-- Modelled from the spec: the recursive evaluator of §4.6 (absent from
`src/`).  Leaves look up both variables (unbound ⇒ fatal `none`) and invoke
the context predicate; `And`/`Or` short-circuit; `Implies` is vacuously
satisfied on a violated premise without evaluating the obligation;
`VarIntroduction` iterates the candidate set per its quantifier. -/
def eval (ctx : EvalCtx) : Nat → List (Variable × GraphNode) → ASTNode → Option Verdict
  | 0, _, _ => none
  | _, env, .flowsTo src dest =>
    match envLookup env src, envLookup env dest with
    | some a, some b =>
      some (if ctx.flowsToData a b then .satisfied else .violated (.failingNode a))
    | _, _ => none
  | _, env, .controlFlow src dest =>
    match envLookup env src, envLookup env dest with
    | some a, some b =>
      some (if ctx.ctrlInfluence a b then .satisfied else .violated (.failingNode a))
    | _, _ => none
  | _, env, .through src dest checkpoint =>
    match envLookup env src, envLookup env dest, envLookup env checkpoint with
    | some a, some b, some c =>
      some (if ctx.flowsToData a b && ctx.causallyBetween a c b
            then .satisfied else .violated (.failingNode a))
    | _, _, _ => none
  | fuel + 1, env, .and l r =>
    match eval ctx (fuel + 1) env l with
    | some .satisfied => eval ctx (fuel + 1) env r
    | some (.violated w) => some (.violated w)
    | none => none
  | fuel + 1, env, .or l r =>
    match eval ctx (fuel + 1) env l with
    | some .satisfied => some .satisfied
    | some (.violated _) => eval ctx (fuel + 1) env r
    | none => none
  | fuel + 1, env, .implies prem obl =>
    match eval ctx (fuel + 1) env prem with
    | some .satisfied => eval ctx (fuel + 1) env obl
    | some (.violated _) => some .satisfied
    | none => none
  | fuel + 1, env, .varIntroduction b bd =>
    match b.quantifier with
    | .all =>
      runAll (fun c => eval ctx fuel ((b.variable', c) :: env) bd)
        (ctx.markedNodes b.marker)
    | .some =>
      runSome b.variable' b.marker (fun c => eval ctx fuel ((b.variable', c) :: env) bd)
        (ctx.markedNodes b.marker)

/-- Nesting depth of `VarIntroduction` binders, bounding the fuel `eval` needs. -/
def bindingDepth : ASTNode → Nat
  | .flowsTo _ _ | .controlFlow _ _ | .through _ _ _ => 0
  | .and l r | .or l r | .implies l r => max (bindingDepth l) (bindingDepth r)
  | .varIntroduction _ bd => bindingDepth bd + 1

/-- Evaluate a whole policy with adequate fuel and an empty environment. -/
def evalPolicy (ctx : EvalCtx) (p : Policy) : Option Verdict :=
  eval ctx (bindingDepth p.body + 1) [] p.body

/-! ### Compile stage (claim C6, `src/compile/src/lib.rs` lines 180–202)

`compile_policy_scope` renders the handlebars `always` template for
`PolicyScope::Always` and hits `todo!()` — an explicit unsupported-feature
panic that never produces output — for `PolicyScope::Sometimes`.  Template
rendering is an external textual step (spec §1 places it out of scope); it
is abstracted as a function argument, and the `todo!()` arm is modelled as
an error value. -/

/-- Failure of the compile stage: the `todo!()` unsupported-feature panic. -/
inductive CompileError : Type
  | unsupported
deriving DecidableEq, Repr

/-- `fn compile_policy_scope`, with handlebars rendering abstracted as
`renderAlways`. -/
def compile_policy_scope (renderAlways : List VariableBinding → String)
    (bindings : List VariableBinding) : PolicyScope → Except CompileError String
  | .always => .ok (renderAlways bindings)
  | .sometimes => .error .unsupported

/-! ### Characterization lemmas for the combinators -/

theorem palt_eq_some {p q : P α} {s : List Char} {x : List Char × α} :
    palt p q s = some x ↔ p s = some x ∨ (p s = none ∧ q s = some x) := by
  unfold palt
  rcases hp : p s with _ | y <;> simp [hp]

theorem palt_eq_none {p q : P α} {s : List Char} :
    palt p q s = none ↔ p s = none ∧ q s = none := by
  unfold palt
  rcases hp : p s with _ | y <;> simp [hp]

theorem pmap_eq_some {p : P α} {f : α → β} {s : List Char} {x : List Char × β} :
    pmap p f s = some x ↔ ∃ r a, p s = some (r, a) ∧ x = (r, f a) := by
  constructor
  · intro h
    unfold pmap at h
    split at h
    · exact absurd h (by simp)
    · rename_i r a hp
      exact ⟨r, a, hp, (Option.some.inj h).symm⟩
  · rintro ⟨r, a, hp, rfl⟩
    unfold pmap
    rw [hp]

theorem tuple2_eq_some {p : P α} {q : P β} {s : List Char} {x : List Char × (α × β)} :
    tuple2 p q s = some x ↔
      ∃ r₁ a r₂ b, p s = some (r₁, a) ∧ q r₁ = some (r₂, b) ∧ x = (r₂, (a, b)) := by
  constructor
  · intro h
    unfold tuple2 at h
    split at h
    · exact absurd h (by simp)
    · rename_i r₁ a hp
      split at h
      · exact absurd h (by simp)
      · rename_i r₂ b hq
        exact ⟨r₁, a, r₂, b, hp, hq, (Option.some.inj h).symm⟩
  · rintro ⟨r₁, a, r₂, b, hp, hq, rfl⟩
    unfold tuple2
    rw [hp]
    simp only []
    rw [hq]

theorem tuple3_eq_some {p : P α} {q : P β} {t : P γ} {s : List Char}
    {x : List Char × (α × β × γ)} :
    tuple3 p q t s = some x ↔
      ∃ r₁ a r₂ b r₃ c, p s = some (r₁, a) ∧ q r₁ = some (r₂, b) ∧ t r₂ = some (r₃, c) ∧
        x = (r₃, (a, b, c)) := by
  constructor
  · intro h
    unfold tuple3 at h
    rw [pmap_eq_some] at h
    obtain ⟨r, y, hy, rfl⟩ := h
    rw [tuple2_eq_some] at hy
    obtain ⟨r₁, a, r₂, bc, hp, hq, heq⟩ := hy
    rw [tuple2_eq_some] at hq
    obtain ⟨r₂', b, r₃, c, hq', ht, heq'⟩ := hq
    simp only [Prod.mk.injEq] at heq heq'
    obtain ⟨rfl, rfl⟩ := heq
    obtain ⟨rfl, rfl⟩ := heq'
    exact ⟨r₁, a, r₂', b, r, c, hp, hq', ht, rfl⟩
  · rintro ⟨r₁, a, r₂, b, r₃, c, hp, hq, ht, rfl⟩
    unfold tuple3
    rw [pmap_eq_some]
    refine ⟨r₃, (a, (b, c)), ?_, rfl⟩
    rw [tuple2_eq_some]
    exact ⟨r₁, a, r₃, (b, c), hp, by rw [tuple2_eq_some]; exact ⟨r₂, b, r₃, c, hq, ht, rfl⟩, rfl⟩

theorem terminated_eq_some {p : P α} {q : P β} {s : List Char} {x : List Char × α} :
    terminated p q s = some x ↔
      ∃ r₁ a r₂ b, p s = some (r₁, a) ∧ q r₁ = some (r₂, b) ∧ x = (r₂, a) := by
  constructor
  · intro h
    unfold terminated at h
    rw [pmap_eq_some] at h
    obtain ⟨r, y, hy, rfl⟩ := h
    rw [tuple2_eq_some] at hy
    obtain ⟨r₁, a, r₂, b, hp, hq, heq⟩ := hy
    simp only [Prod.mk.injEq] at heq
    obtain ⟨rfl, rfl⟩ := heq
    exact ⟨r₁, a, r, b, hp, hq, rfl⟩
  · rintro ⟨r₁, a, r₂, b, hp, hq, rfl⟩
    unfold terminated
    rw [pmap_eq_some]
    refine ⟨r₂, (a, b), ?_, rfl⟩
    rw [tuple2_eq_some]
    exact ⟨r₁, a, r₂, b, hp, hq, rfl⟩

theorem all_consuming_eq_some {p : P α} {s : List Char} {x : List Char × α} :
    all_consuming p s = some x ↔ p s = some x ∧ x.1 = [] := by
  constructor
  · intro h
    unfold all_consuming at h
    split at h
    · exact absurd h (by simp)
    · rename_i r a hp
      split at h
      · rename_i hr
        cases h
        exact ⟨hr ▸ hp, hr⟩
      · exact absurd h (by simp)
  · rintro ⟨hp, hr⟩
    rcases x with ⟨xr, xa⟩
    obtain rfl : xr = [] := hr
    simp [all_consuming, hp]

/-! ### Shape lemmas: what each leaf/clause parser can return -/

theorem flows_to_expr_shape {s : List Char} {r : List Char} {a : ASTNode}
    (h : flows_to_expr s = some (r, a)) : ∃ x y, a = ASTNode.flowsTo x y := by
  unfold flows_to_expr at h
  rw [pmap_eq_some] at h
  obtain ⟨r', v, _, heq⟩ := h
  simp only [Prod.mk.injEq] at heq
  exact ⟨v.1, v.2.2, heq.2⟩

theorem through_expr_shape {s : List Char} {r : List Char} {a : ASTNode}
    (h : through_expr s = some (r, a)) : ∃ x y z, a = ASTNode.through x y z := by
  unfold through_expr at h
  rcases hsep : separated_pair flows_to_expr through pvariable s with _ | ⟨r', ft, cp⟩
  · rw [hsep] at h
    exact absurd h (by simp)
  · rw [hsep] at h
    cases ft <;> simp only [] at h
    case flowsTo x y =>
      obtain ⟨_, ha⟩ := Prod.mk.injEq .. ▸ Option.some.inj h
      exact ⟨x, y, cp, ha.symm⟩
    all_goals exact absurd h (by simp)

theorem variable_clause_shape {fuel : Nat} {s : List Char} {r : List Char} {a : ASTNode}
    (h : variable_clause fuel s = some (r, a)) :
    ∃ b bd, a = ASTNode.varIntroduction b bd := by
  cases fuel with
  | zero => exact absurd h (by simp [variable_clause])
  | succ f =>
    unfold variable_clause at h
    rcases ht : tuple4 quantifier (terminated pvariable colon) (terminated marker open_paren)
        (terminated (palt (joined_clauses f) (palt (variable_clause f) (body f)))
          (terminated close_paren multispace0)) s with _ | ⟨r', q, v, m, bd⟩
    · rw [ht] at h
      exact absurd h (by simp)
    · rw [ht] at h
      obtain ⟨_, ha⟩ := Prod.mk.injEq .. ▸ Option.some.inj h
      exact ⟨⟨q, v, m⟩, bd, ha.symm⟩

/-! ### The top-level two-tier invariant (claim C1) -/

/-- Whether a node is a `VarIntroduction` (a variable clause). -/
def isVarIntro : ASTNode → Bool
  | .varIntroduction _ _ => true
  | _ => false

/-- Every operand of a top-level joined expression is a variable clause:
the node is a clause, or an operator node whose left operand is a clause and
whose right operand recursively satisfies the same condition (matching the
right-nested shape `joined_variable_clauses` builds). -/
def topClauses : ASTNode → Bool
  | .varIntroduction _ _ => true
  | .and l r => isVarIntro l && topClauses r
  | .or l r => isVarIntro l && topClauses r
  | .implies l r => isVarIntro l && topClauses r
  | _ => false

theorem topClauses_mkOperatorNode {op : Operator} {l r : ASTNode} :
    topClauses (mkOperatorNode op l r) = (isVarIntro l && topClauses r) := by
  cases op <;> rfl

theorem exprs_topClauses :
    ∀ fuel s r a, exprs fuel s = some (r, a) → topClauses a = true := by
  intro fuel
  induction fuel using Nat.strong_induction_on with
  | _ fuel ih =>
    intro s r a h
    match fuel with
    | 0 => exact absurd h (by simp [exprs])
    | f + 1 =>
      unfold exprs at h
      rw [palt_eq_some] at h
      rcases h with h | ⟨_, h⟩
      · match f with
        | 0 => exact absurd h (by simp [joined_variable_clauses])
        | g + 1 =>
          unfold joined_variable_clauses at h
          rcases ht : tuple3 (variable_clause g) operator (exprs g) s with _ | ⟨r', src, op, dest⟩
          · rw [ht] at h
            exact absurd h (by simp)
          · rw [ht] at h
            obtain ⟨_, ha⟩ := Prod.mk.injEq .. ▸ Option.some.inj h
            rw [tuple3_eq_some] at ht
            obtain ⟨r₁, src', r₂, op', r₃, dest', hvc, hop, hex, heq⟩ := ht
            simp only [Prod.mk.injEq] at heq
            obtain ⟨rfl, rfl, rfl, rfl⟩ := heq
            rw [← ha, topClauses_mkOperatorNode]
            obtain ⟨b, bd, rfl⟩ := variable_clause_shape hvc
            have htop := ih g (by omega) _ _ _ hex
            simp [isVarIntro, htop]
      · obtain ⟨b, bd, rfl⟩ := variable_clause_shape h
        rfl

/-- If the `quantifier` terminal fails on an input, every top-level rule
(`variable_clause`, `joined_variable_clauses`, `exprs`) fails on it, at any
fuel: each begins by consuming a quantifier keyword. -/
theorem exprs_fails_without_quantifier :
    ∀ fuel s, quantifier s = none →
      variable_clause fuel s = none ∧ joined_variable_clauses fuel s = none ∧
        exprs fuel s = none := by
  intro fuel
  induction fuel using Nat.strong_induction_on with
  | _ fuel ih =>
    intro s hq
    match fuel with
    | 0 => exact ⟨by simp [variable_clause], by simp [joined_variable_clauses], by simp [exprs]⟩
    | f + 1 =>
      have hvc : variable_clause (f + 1) s = none := by
        unfold variable_clause
        rcases ht : tuple4 quantifier (terminated pvariable colon) (terminated marker open_paren)
            (terminated (palt (joined_clauses f) (palt (variable_clause f) (body f)))
              (terminated close_paren multispace0)) s with _ | ⟨r', q, v, m, bd⟩
        · rfl
        · exfalso
          unfold tuple4 at ht
          rw [pmap_eq_some] at ht
          obtain ⟨r, y, hy, _⟩ := ht
          rw [tuple2_eq_some] at hy
          obtain ⟨r₁, _, _, _, hquant, _, _⟩ := hy
          rw [hq] at hquant
          exact Option.noConfusion hquant
      have hjvc : joined_variable_clauses (f + 1) s = none := by
        unfold joined_variable_clauses
        rcases ht : tuple3 (variable_clause f) operator (exprs f) s with _ | ⟨r', src, op, dest⟩
        · rfl
        · exfalso
          rw [tuple3_eq_some] at ht
          obtain ⟨r₁, _, _, _, _, _, hvcf, _⟩ := ht
          have := (ih f (by omega) s hq).1
          rw [this] at hvcf
          exact Option.noConfusion hvcf
      refine ⟨hvc, hjvc, ?_⟩
      unfold exprs
      rw [palt_eq_none]
      have hf := ih f (by omega) s hq
      cases f with
      | zero => exact ⟨by simp [joined_variable_clauses], by simp [variable_clause]⟩
      | succ g =>
        constructor
        · unfold joined_variable_clauses
          rcases ht : tuple3 (variable_clause g) operator (exprs g) s with _ | ⟨r', src, op, dest⟩
          · rfl
          · exfalso
            rw [tuple3_eq_some] at ht
            obtain ⟨r₁, _, _, _, _, _, hvcf, _⟩ := ht
            rw [(ih g (by omega) s hq).1] at hvcf
            exact Option.noConfusion hvcf
        · exact hf.1

/-! ### Through-disambiguation (claim C3) -/

theorem pnot_eq_some {p : P α} {s : List Char} {x : List Char × Unit} :
    pnot p s = some x ↔ p s = none ∧ x = (s, ()) := by
  unfold pnot
  rcases hp : p s with _ | y <;> simp [hp, eq_comm]

theorem flows_to_or_through_cases {s r : List Char} {a : ASTNode}
    (h : flows_to_or_through_expr s = some (r, a)) :
    (through_expr s = some (r, a) ∧ ∃ x y z, a = ASTNode.through x y z) ∨
      (through_expr s = none ∧ flows_to_expr s = some (r, a) ∧ through r = none ∧
        ∃ x y, a = ASTNode.flowsTo x y) := by
  unfold flows_to_or_through_expr at h
  rw [palt_eq_some] at h
  rcases h with h | ⟨hth, h⟩
  · exact Or.inl ⟨h, through_expr_shape h⟩
  · rw [terminated_eq_some] at h
    obtain ⟨r₁, a', r₂, u, hft, hnot, heq⟩ := h
    rw [pnot_eq_some] at hnot
    obtain ⟨hthr, heq'⟩ := hnot
    simp only [Prod.mk.injEq] at heq heq'
    obtain ⟨rfl, rfl⟩ := heq
    obtain rfl := heq'.1
    exact Or.inr ⟨hth, hft, hthr, flows_to_expr_shape hft⟩

/-! ### Whole-input consumption (claim C5) -/

/-- The `tuple((scope, exprs))` inside `parse`, followed by the `Policy`
construction, before the `all_consuming` wrapper. -/
def scope_exprs (fuel : Nat) : P Policy :=
  pmap (tuple2 scope (exprs fuel)) (fun x => { scope := x.1, body := x.2 })

theorem parse_as_all_consuming (s : List Char) :
    parse s = all_consuming (scope_exprs (s.length + 1)) s := by
  unfold parse scope_exprs all_consuming pmap tuple2
  rcases hs : scope s with _ | ⟨r₁, sc⟩ <;> simp only []
  rcases he : exprs (s.length + 1) r₁ with _ | ⟨r₂, bd⟩ <;> simp only []
  by_cases hr : r₂ = [] <;> simp [hr]

theorem parse_consumes_all {s r : List Char} {p : Policy}
    (h : parse s = some (r, p)) : r = [] := by
  rw [parse_as_all_consuming] at h
  rw [all_consuming_eq_some] at h
  exact h.2

theorem parse_rejects_trailing {fuel : Nat} {s r : List Char} {p : Policy}
    (h : scope_exprs fuel s = some (r, p)) (hr : r ≠ []) :
    all_consuming (scope_exprs fuel) s = none := by
  unfold all_consuming
  rw [h]
  simp [hr]

/-! ### Quantifier semantics (claim C4) -/

theorem runAll_satisfied_iff (f : GraphNode → Option Verdict) (l : List GraphNode) :
    runAll f l = some .satisfied ↔ ∀ c ∈ l, f c = some .satisfied := by
  induction l with
  | nil => simp [runAll]
  | cons c rest ih =>
    rcases hf : f c with _ | v
    · simp [runAll, hf]
    · rcases v with _ | w
      · simp [runAll, hf, ih]
      · simp [runAll, hf]

theorem runAll_violated {f : GraphNode → Option Verdict} {l : List GraphNode} {w : Witness}
    (h : runAll f l = some (.violated w)) :
    ∃ l₁ c l₂, l = l₁ ++ c :: l₂ ∧ (∀ x ∈ l₁, f x = some .satisfied) ∧
      (∃ w', f c = some (.violated w')) ∧ w = .failingNode c := by
  induction l with
  | nil => simp [runAll] at h
  | cons c rest ih =>
    unfold runAll at h
    rcases hf : f c with _ | v
    · rw [hf] at h
      exact absurd h (by simp)
    · rw [hf] at h
      rcases v with _ | w'
      · obtain ⟨l₁, c', l₂, rfl, hsat, hviol, rfl⟩ := ih h
        refine ⟨c :: l₁, c', l₂, rfl, ?_, hviol, rfl⟩
        intro x hx
        rcases List.mem_cons.mp hx with rfl | hx'
        · exact hf
        · exact hsat x hx'
      · refine ⟨[], c, rest, rfl, by simp, ⟨w', hf⟩, ?_⟩
        have h' := Option.some.inj h
        injection h' with h''
        exact h''.symm

theorem runSome_satisfied_iff (v : Variable) (m : Marker) (f : GraphNode → Option Verdict)
    (l : List GraphNode) :
    runSome v m f l = some .satisfied ↔
      ∃ l₁ c l₂, l = l₁ ++ c :: l₂ ∧ (∀ x ∈ l₁, ∃ w, f x = some (.violated w)) ∧
        f c = some .satisfied := by
  induction l with
  | nil =>
    constructor
    · intro h
      simp [runSome] at h
    · rintro ⟨l₁, c, l₂, hl, -, -⟩
      exact absurd hl (by simp)
  | cons c rest ih =>
    unfold runSome
    rcases hf : f c with _ | val
    · simp only []
      constructor
      · intro h
        exact absurd h (by simp)
      · rintro ⟨l₁, c', l₂, hl, hviol, hsat⟩
        rcases l₁ with _ | ⟨x, l₁'⟩
        · simp only [List.nil_append] at hl
          injection hl with h1 h2
          subst h1
          rw [hsat] at hf
          exact Option.noConfusion hf
        · simp only [List.cons_append] at hl
          injection hl with h1 h2
          subst h1
          obtain ⟨w, hw⟩ := hviol c (by simp)
          rw [hw] at hf
          exact Option.noConfusion hf
    · rcases val with _ | w
      · simp only []
        constructor
        · intro _
          exact ⟨[], c, rest, rfl, by simp, hf⟩
        · intro _
          trivial
      · simp only []
        rw [ih]
        constructor
        · rintro ⟨l₁, c', l₂, rfl, hviol, hsat⟩
          refine ⟨c :: l₁, c', l₂, rfl, ?_, hsat⟩
          intro x hx
          rcases List.mem_cons.mp hx with rfl | hx'
          · exact ⟨w, hf⟩
          · exact hviol x hx'
        · rintro ⟨l₁, c', l₂, hl, hviol, hsat⟩
          rcases l₁ with _ | ⟨x, l₁'⟩
          · simp only [List.nil_append] at hl
            injection hl with h1 h2
            subst h1
            rw [hsat] at hf
            exact absurd (Option.some.inj hf) (by simp)
          · simp only [List.cons_append] at hl
            injection hl with h1 h2
            subst h2
            exact ⟨l₁', c', l₂, rfl, fun x hx => hviol x (List.mem_cons_of_mem _ hx), hsat⟩

theorem runSome_exhausted {v : Variable} {m : Marker} {f : GraphNode → Option Verdict}
    {l : List GraphNode} (h : ∀ c ∈ l, ∃ w, f c = some (.violated w)) :
    runSome v m f l = some (.violated (.noCandidate v m)) := by
  induction l with
  | nil => rfl
  | cons c rest ih =>
    obtain ⟨w, hw⟩ := h c (by simp)
    unfold runSome
    rw [hw]
    exact ih (fun x hx => h x (List.mem_cons_of_mem c hx))

/-- Unfolding `eval` at a binder with positive fuel. -/
theorem eval_varIntroduction (ctx : EvalCtx) (fuel : Nat) (env : List (Variable × GraphNode))
    (q : Quantifier) (v : Variable) (m : Marker) (bd : ASTNode) :
    eval ctx (fuel + 1) env (.varIntroduction ⟨q, v, m⟩ bd) =
      match q with
      | .all => runAll (fun c => eval ctx fuel ((v, c) :: env) bd) (ctx.markedNodes m)
      | .some => runSome v m (fun c => eval ctx fuel ((v, c) :: env) bd) (ctx.markedNodes m) := by
  cases q <;> rfl

/-! ### Identifier lexer vs. the spec shape (claims C7, C8) -/

theorem alpha_ne_underscore {c : Char} (h : c.isAlpha = true) : c ≠ '_' := by
  intro hc
  subst hc
  exact absurd h (by decide)

theorem noConsec_tail {a : Char} {l : List Char}
    (h : noConsecUnderscores (a :: l) = true) : noConsecUnderscores l = true := by
  cases l with
  | nil => rfl
  | cons b rest =>
    simp only [noConsecUnderscores, Bool.and_eq_true] at h
    exact h.2

theorem noConsec_cons_of_ne {a : Char} {l : List Char} (ha : a ≠ '_') :
    noConsecUnderscores (a :: l) = noConsecUnderscores l := by
  cases l with
  | nil => simp [noConsecUnderscores]
  | cons b rest => simp [noConsecUnderscores, ha]

theorem noConsec_underscore_cons {l : List Char}
    (hl : ∀ c, l.head? = some c → c ≠ '_') :
    noConsecUnderscores ('_' :: l) = noConsecUnderscores l := by
  cases l with
  | nil => simp [noConsecUnderscores]
  | cons b rest =>
    have hb : b ≠ '_' := hl b rfl
    simp [noConsecUnderscores, hb]

theorem noConsec_append_right {l₁ l₂ : List Char}
    (h : noConsecUnderscores (l₁ ++ l₂) = true) : noConsecUnderscores l₂ = true := by
  induction l₁ with
  | nil => exact h
  | cons a rest ih => exact ih (noConsec_tail h)

theorem dropWhile_head_false {p : Char → Bool} :
    ∀ {l : List Char} {d : Char} {t : List Char}, l.dropWhile p = d :: t → p d = false := by
  intro l
  induction l with
  | nil =>
    intro d t h
    exact absurd h (by simp)
  | cons a l' ih =>
    intro d t h
    rw [List.dropWhile_cons] at h
    by_cases ha : p a = true
    · rw [if_pos ha] at h
      exact ih h
    · rw [if_neg ha] at h
      injection h with h1 _
      subst h1
      exact Bool.eq_false_iff.mpr ha

theorem takeWhile_append_run {p : Char → Bool} {run rest : List Char}
    (hall : ∀ c ∈ run, p c = true) (hhead : ∀ c, rest.head? = some c → p c = false) :
    (run ++ rest).takeWhile p = run ∧ (run ++ rest).dropWhile p = rest := by
  induction run with
  | nil =>
    cases rest with
    | nil => simp
    | cons c t =>
      have hc := hhead c rfl
      simp [List.takeWhile_cons, List.dropWhile_cons, hc]
  | cons a run' ih =>
    have ha := hall a (by simp)
    have ih' := ih (fun c hc => hall c (by simp [hc]))
    simp only [List.cons_append, List.takeWhile_cons, List.dropWhile_cons, ha, if_pos]
    exact ⟨by rw [ih'.1], by rw [ih'.2]⟩

theorem take_while1_run {p : Char → Bool} {run rest : List Char} (hrun : run ≠ [])
    (hall : ∀ c ∈ run, p c = true) (hhead : ∀ c, rest.head? = some c → p c = false) :
    take_while1 p (run ++ rest) = some (rest, run) := by
  obtain ⟨htw, hdw⟩ := takeWhile_append_run hall hhead
  unfold take_while1
  rw [htw, hdw]
  cases run with
  | nil => exact absurd rfl hrun
  | cons a run' => rfl

theorem take_while1_inv {p : Char → Bool} {s r₁ run : List Char}
    (h : take_while1 p s = some (r₁, run)) :
    run = s.takeWhile p ∧ r₁ = s.dropWhile p ∧ run ≠ [] := by
  unfold take_while1 at h
  rcases ht : s.takeWhile p with _ | ⟨c, cs⟩
  · rw [ht] at h
    exact absurd h (by simp)
  · rw [ht] at h
    obtain ⟨h1, h2⟩ := Prod.mk.injEq .. ▸ Option.some.inj h
    exact ⟨h2.symm, h1.symm, h2.symm ▸ (by simp)⟩

theorem popt_pchar_consume {c : Char} {t : List Char} :
    popt (pchar c) (c :: t) = some (t, some c) := by
  simp [popt, pchar]

theorem popt_pchar_skip {c : Char} {t : List Char} (h : ∀ d, t.head? = some d → d ≠ c) :
    popt (pchar c) t = some (t, none) := by
  cases t with
  | nil => rfl
  | cons d t' =>
    have hd := h d rfl
    simp [popt, pchar, hd]

theorem popt_pchar_inv {c : Char} {l r : List Char} {u : Option Char}
    (h : popt (pchar c) l = some (r, u)) :
    (u = some c ∧ l = c :: r) ∨ (u = none ∧ r = l ∧ ∀ d, l.head? = some d → d ≠ c) := by
  cases l with
  | nil =>
    obtain ⟨h1, h2⟩ := Prod.mk.injEq .. ▸ Option.some.inj h
    exact Or.inr ⟨h2.symm, h1.symm, by simp⟩
  | cons d t =>
    by_cases hd : d = c
    · subst hd
      rw [popt_pchar_consume] at h
      obtain ⟨h1, h2⟩ := Prod.mk.injEq .. ▸ Option.some.inj h
      exact Or.inl ⟨h2.symm, by rw [h1]⟩
    · rw [popt_pchar_skip (fun e he => by injection he with he'; exact he' ▸ hd)] at h
      obtain ⟨h1, h2⟩ := Prod.mk.injEq .. ▸ Option.some.inj h
      exact Or.inr ⟨h2.symm, h1.symm, fun e he => by injection he with he'; exact he' ▸ hd⟩

theorem identChunk_boundary {t : List Char} (h : identBoundary t = true) :
    identChunk t = none := by
  cases t with
  | nil => rfl
  | cons c t' =>
    simp only [identBoundary, Bool.and_eq_true, Bool.not_eq_true'] at h
    simp [identChunk, tuple2, take_while1, List.takeWhile_cons, h.1]

theorem identBoundary_head_not_alpha {t : List Char} (h : identBoundary t = true) :
    ∀ c, t.head? = some c → c.isAlpha = false := by
  intro c hc
  cases t with
  | nil => exact absurd hc (by simp)
  | cons d t' =>
    injection hc with hc'
    subst hc'
    simp only [identBoundary, Bool.and_eq_true, Bool.not_eq_true'] at h
    exact h.1

theorem identBoundary_head_not_underscore {t : List Char} (h : identBoundary t = true) :
    ∀ c, t.head? = some c → c ≠ '_' := by
  intro c hc
  cases t with
  | nil => exact absurd hc (by simp)
  | cons d t' =>
    injection hc with hc'
    subst hc'
    simp only [identBoundary, Bool.and_eq_true, Bool.not_eq_true'] at h
    intro hcc
    rw [hcc] at h
    exact absurd h.2 (by simp)

theorem identChunk_run_none {run t : List Char} (hrun : run ≠ [])
    (hall : ∀ c ∈ run, c.isAlpha = true) (hb : identBoundary t = true) :
    identChunk (run ++ t) = some (t, (run, none)) := by
  unfold identChunk
  rw [tuple2_eq_some]
  exact ⟨t, run, t, none, take_while1_run hrun hall (identBoundary_head_not_alpha hb),
    popt_pchar_skip (identBoundary_head_not_underscore hb), rfl⟩

theorem identChunk_run_underscore {run tail : List Char} (hrun : run ≠ [])
    (hall : ∀ c ∈ run, c.isAlpha = true) :
    identChunk (run ++ '_' :: tail) = some (tail, (run, some '_')) := by
  unfold identChunk
  rw [tuple2_eq_some]
  refine ⟨'_' :: tail, run, tail, some '_', ?_, popt_pchar_consume, rfl⟩
  exact take_while1_run hrun hall
    (fun c hc => by injection hc with hc'; subst hc'; decide)

theorem specIdent_decomp {s : List Char} (h : specIdent s = true) :
    ∃ run rest, s = run ++ rest ∧ run ≠ [] ∧ (∀ c ∈ run, c.isAlpha = true) ∧
      (rest = [] ∨ ∃ rest2, rest = '_' :: rest2 ∧ (rest2 = [] ∨ specIdent rest2 = true)) := by
  rcases hs : s with _ | ⟨c, s'⟩
  · rw [hs] at h
    exact absurd h (by simp [specIdent])
  · subst hs
    simp only [specIdent, Bool.and_eq_true] at h
    obtain ⟨⟨hc, hall⟩, hnc⟩ := h
    refine ⟨(c :: s').takeWhile Char.isAlpha, (c :: s').dropWhile Char.isAlpha,
      (List.takeWhile_append_dropWhile Char.isAlpha (c :: s')).symm, ?_,
      fun x hx => List.mem_takeWhile_imp hx, ?_⟩
    · rw [List.takeWhile_cons, if_pos hc]
      simp
    · rcases hrest : (c :: s').dropWhile Char.isAlpha with _ | ⟨d, rest2⟩
      · exact Or.inl rfl
      · have hdsub : List.Sublist (d :: rest2) (c :: s') := hrest ▸ List.dropWhile_sublist _
        have hd_ok : identCharOK d = true := by
          rw [List.all_eq_true] at hall
          exact hall d (hdsub.subset (by simp))
        have hd_not_alpha : d.isAlpha = false := dropWhile_head_false hrest
        have hd : d = '_' := by
          simp only [identCharOK, Bool.or_eq_true] at hd_ok
          rcases hd_ok with h1 | h2
          · rw [hd_not_alpha] at h1
            exact absurd h1 (by simp)
          · exact of_decide_eq_true h2
        subst hd
        refine Or.inr ⟨rest2, rfl, ?_⟩
        rcases hrest2 : rest2 with _ | ⟨e, rest3⟩
        · exact Or.inl rfl
        · subst hrest2
          have hs_eq : c :: s' =
              (c :: s').takeWhile Char.isAlpha ++ '_' :: e :: rest3 := by
            rw [← hrest]
            exact (List.takeWhile_append_dropWhile Char.isAlpha (c :: s')).symm
          have hnc_rest : noConsecUnderscores ('_' :: e :: rest3) = true := by
            apply @noConsec_append_right ((c :: s').takeWhile Char.isAlpha) ('_' :: e :: rest3)
            rw [← hs_eq]
            exact hnc
          have he_ne : e ≠ '_' := by
            intro he
            subst he
            simp [noConsecUnderscores] at hnc_rest
          have he_ok : identCharOK e = true := by
            rw [List.all_eq_true] at hall
            exact hall e ((hrest ▸ List.dropWhile_sublist Char.isAlpha).subset (by simp))
          have he_alpha : e.isAlpha = true := by
            simp only [identCharOK, Bool.or_eq_true] at he_ok
            rcases he_ok with h1 | h2
            · exact h1
            · exact absurd (of_decide_eq_true h2) he_ne
          refine Or.inr ?_
          simp only [specIdent, Bool.and_eq_true]
          refine ⟨⟨he_alpha, ?_⟩, ?_⟩
          · rw [List.all_eq_true] at hall ⊢
            intro x hx
            exact hall x ((hrest ▸ List.dropWhile_sublist Char.isAlpha).subset
              (List.mem_cons_of_mem '_' hx))
          · rw [noConsec_underscore_cons (fun x hx => by injection hx with hx'; exact hx' ▸ he_ne)]
              at hnc_rest
            exact hnc_rest

theorem noConsec_all_alpha {l : List Char} (h : ∀ c ∈ l, c.isAlpha = true) :
    noConsecUnderscores l = true := by
  induction l with
  | nil => rfl
  | cons a l' ih =>
    rw [noConsec_cons_of_ne (alpha_ne_underscore (h a (by simp)))]
    exact ih (fun c hc => h c (by simp [hc]))

theorem specIdent_of_all_alpha {run : List Char} (hrun : run ≠ [])
    (hall : ∀ c ∈ run, c.isAlpha = true) : specIdent run = true := by
  rcases run with _ | ⟨a, run'⟩
  · exact absurd rfl hrun
  · simp only [specIdent, Bool.and_eq_true]
    refine ⟨⟨hall a (by simp), ?_⟩, noConsec_all_alpha hall⟩
    rw [List.all_eq_true]
    intro x hx
    simp [identCharOK, hall x hx]

theorem noConsec_alpha_run_append {run tail : List Char}
    (hall : ∀ c ∈ run, c.isAlpha = true) :
    noConsecUnderscores (run ++ tail) = noConsecUnderscores tail := by
  induction run with
  | nil => rfl
  | cons a run' ih =>
    rw [List.cons_append, noConsec_cons_of_ne (alpha_ne_underscore (hall a (by simp)))]
    exact ih (fun c hc => hall c (by simp [hc]))

theorem specIdent_run_underscore {run r : List Char} (hrun : run ≠ [])
    (hall : ∀ c ∈ run, c.isAlpha = true) (hr : r = [] ∨ specIdent r = true) :
    specIdent (run ++ '_' :: r) = true := by
  rcases run with _ | ⟨a, run'⟩
  · exact absurd rfl hrun
  · simp only [specIdent, Bool.and_eq_true, List.cons_append]
    refine ⟨⟨hall a (by simp), ?_⟩, ?_⟩
    · rw [List.all_eq_true]
      intro x hx
      rw [List.mem_cons] at hx
      rcases hx with rfl | hx
      · simp [identCharOK, hall x (by simp)]
      · rw [List.mem_append] at hx
        rcases hx with hx | hx
        · simp [identCharOK, hall x (by simp [hx])]
        · rw [List.mem_cons] at hx
          rcases hx with rfl | hx
          · simp [identCharOK]
          · rcases hr with rfl | hr
            · exact absurd hx (by simp)
            · simp only [specIdent, Bool.and_eq_true] at hr
              rw [List.all_eq_true] at hr
              exact hr.1.2 x hx
    · rw [show a :: (run' ++ '_' :: r) = (a :: run') ++ '_' :: r by simp,
        noConsec_alpha_run_append hall]
      rcases hr with rfl | hr
      · simp [noConsecUnderscores]
      · rcases hr_shape : r with _ | ⟨e, r'⟩
        · simp [noConsecUnderscores]
        · subst hr_shape
          simp only [specIdent, Bool.and_eq_true] at hr
          have he : e ≠ '_' := alpha_ne_underscore hr.1.1
          rw [noConsec_underscore_cons (fun x hx => by injection hx with hx'; exact hx' ▸ he)]
          exact hr.2

theorem many1Go_step {p : P α} {fuel : Nat} {s r r₂ : List Char} {a : α} {out : List α}
    (hp : p s = some (r, a)) (hlt : r.length < s.length)
    (hgo : many1Go p fuel r = some (r₂, out)) :
    many1Go p (fuel + 1) s = some (r₂, a :: out) := by
  unfold many1Go
  rw [hp]
  simp only [if_pos hlt, hgo]

theorem many1_step {p : P α} {s r r₂ : List Char} {a : α} {out : List α}
    (hp : p s = some (r, a)) (hlt : r.length < s.length)
    (hgo : many1Go p (r.length + 1) r = some (r₂, out)) :
    many1 p s = some (r₂, a :: out) := by
  unfold many1
  rw [hp]
  simp only [if_pos hlt, hgo]

theorem many1Go_boundary {t : List Char} {fuel : Nat} (hb : identBoundary t = true)
    (hf : 1 ≤ fuel) : many1Go identChunk fuel t = some (t, []) := by
  obtain ⟨f, rfl⟩ : ∃ f, fuel = f + 1 := ⟨fuel - 1, by omega⟩
  unfold many1Go
  rw [identChunk_boundary hb]

theorem many1Go_complete :
    ∀ (n : Nat) (s t : List Char) (fuel : Nat), s.length ≤ n →
      (s = [] ∨ specIdent s = true) → identBoundary t = true → s.length + 1 ≤ fuel →
      ∃ out, many1Go identChunk fuel (s ++ t) = some (t, out) := by
  intro n
  induction n with
  | zero =>
    intro s t fuel hn hs hb hf
    obtain rfl : s = [] := List.eq_nil_of_length_eq_zero (Nat.le_zero.mp hn)
    rw [List.nil_append]
    exact ⟨[], many1Go_boundary hb (by omega)⟩
  | succ n ih =>
    intro s t fuel hn hs hb hf
    rcases hs with rfl | hspec
    · rw [List.nil_append]
      exact ⟨[], many1Go_boundary hb (by omega)⟩
    · obtain ⟨run, rest, rfl, hrun, hall, hrest⟩ := specIdent_decomp hspec
      have hrunpos : 1 ≤ run.length := List.length_pos.mpr hrun
      obtain ⟨f, rfl⟩ : ∃ f, fuel = f + 1 := ⟨fuel - 1, by omega⟩
      rcases hrest with rfl | ⟨rest2, rfl, hrest2⟩
      · rw [List.append_nil] at hn hf ⊢
        refine ⟨[(run, none)], ?_⟩
        exact many1Go_step (identChunk_run_none hrun hall hb)
          (by simp only [List.length_append]; omega)
          (many1Go_boundary hb (by omega))
      · rw [show (run ++ '_' :: rest2) ++ t = run ++ '_' :: (rest2 ++ t) by simp]
        have hlen : (run ++ '_' :: rest2).length = run.length + rest2.length + 1 := by
          simp only [List.length_append, List.length_cons]
          omega
        obtain ⟨out, hout⟩ := ih rest2 t f (by omega) hrest2 hb (by omega)
        refine ⟨(run, some '_') :: out, ?_⟩
        exact many1Go_step (identChunk_run_underscore hrun hall)
          (by simp only [List.length_append, List.length_cons]; omega) hout

theorem many1_identChunk_complete {s t : List Char} (hs : specIdent s = true)
    (hb : identBoundary t = true) :
    ∃ out, many1 identChunk (s ++ t) = some (t, out) := by
  obtain ⟨run, rest, rfl, hrun, hall, hrest⟩ := specIdent_decomp hs
  have hrunpos : 1 ≤ run.length := List.length_pos.mpr hrun
  rcases hrest with rfl | ⟨rest2, rfl, hrest2⟩
  · rw [List.append_nil]
    refine ⟨[(run, none)], ?_⟩
    exact many1_step (identChunk_run_none hrun hall hb)
      (by simp only [List.length_append]; omega) (many1Go_boundary hb (by omega))
  · rw [show (run ++ '_' :: rest2) ++ t = run ++ '_' :: (rest2 ++ t) by simp]
    obtain ⟨out, hout⟩ := many1Go_complete rest2.length rest2 t ((rest2 ++ t).length + 1)
      (le_refl _) hrest2 hb (by simp only [List.length_append]; omega)
    refine ⟨(run, some '_') :: out, ?_⟩
    exact many1_step (identChunk_run_underscore hrun hall)
      (by simp only [List.length_append, List.length_cons]; omega) hout

theorem identChunk_inv {s r run : List Char} {u : Option Char}
    (h : identChunk s = some (r, (run, u))) :
    run ≠ [] ∧ (∀ c ∈ run, c.isAlpha = true) ∧
      ((u = some '_' ∧ s = run ++ '_' :: r) ∨
        (u = none ∧ s = run ++ r ∧ identBoundary r = true)) := by
  unfold identChunk at h
  rw [tuple2_eq_some] at h
  obtain ⟨r₁, run', r₂, u', htw, hopt, heq⟩ := h
  simp only [Prod.mk.injEq] at heq
  obtain ⟨rfl, rfl, rfl⟩ := heq
  obtain ⟨hrun_eq, hr₁_eq, hrun_ne⟩ := take_while1_inv htw
  have hall : ∀ c ∈ run, c.isAlpha = true := fun c hc =>
    List.mem_takeWhile_imp (hrun_eq ▸ hc)
  have hs_eq : s = run ++ r₁ := by
    rw [hrun_eq, hr₁_eq]
    exact (List.takeWhile_append_dropWhile Char.isAlpha s).symm
  have hr₁_head : ∀ c t', r₁ = c :: t' → c.isAlpha = false := by
    intro c t' hc
    have hdw : List.dropWhile Char.isAlpha s = c :: t' := hr₁_eq ▸ hc
    exact dropWhile_head_false hdw
  rcases popt_pchar_inv hopt with ⟨rfl, hr₁⟩ | ⟨rfl, hreq, hhead⟩
  · exact ⟨hrun_ne, hall, Or.inl ⟨rfl, by rw [hs_eq, hr₁]⟩⟩
  · refine ⟨hrun_ne, hall, Or.inr ⟨rfl, by rw [hs_eq, hreq], ?_⟩⟩
    rw [hreq]
    cases hr : r₁ with
    | nil => rfl
    | cons c t' =>
      have h1 : c.isAlpha = false := hr₁_head c t' hr
      have h2 : c ≠ '_' := hhead c (by rw [hr]; rfl)
      simp [identBoundary, h1, h2]

theorem specIdent_step {s r : List Char} {x : List Char × Option Char}
    (h : identChunk s = some (r, x)) (hr : r = [] ∨ specIdent r = true) :
    specIdent s = true := by
  rcases x with ⟨run, u⟩
  obtain ⟨hrun, hall, hcase⟩ := identChunk_inv h
  rcases hcase with ⟨rfl, rfl⟩ | ⟨rfl, rfl, hb⟩
  · exact specIdent_run_underscore hrun hall hr
  · rcases hr with rfl | hspec
    · rw [List.append_nil]
      exact specIdent_of_all_alpha hrun hall
    · exfalso
      rcases hrr : r with _ | ⟨e, r'⟩
      · rw [hrr] at hspec
        exact absurd hspec (by simp [specIdent])
      · rw [hrr] at hspec hb
        simp only [specIdent, Bool.and_eq_true] at hspec
        have := identBoundary_head_not_alpha hb e rfl
        rw [hspec.1.1] at this
        exact Bool.noConfusion this

theorem many1Go_sound :
    ∀ (fuel : Nat) (s : List Char) (out : List (List Char × Option Char)),
      many1Go identChunk fuel s = some ([], out) → s = [] ∨ specIdent s = true := by
  intro fuel
  induction fuel with
  | zero =>
    intro s out h
    exact absurd h (by simp [many1Go])
  | succ f ih =>
    intro s out h
    unfold many1Go at h
    rcases hc : identChunk s with _ | ⟨r, run, u⟩
    · rw [hc] at h
      obtain ⟨h1, _⟩ := Prod.mk.injEq .. ▸ Option.some.inj h
      exact Or.inl h1
    · rw [hc] at h
      simp only [] at h
      by_cases hlt : r.length < s.length
      · rw [if_pos hlt] at h
        rcases hgo : many1Go identChunk f r with _ | ⟨r₂, as⟩
        · rw [hgo] at h
          exact absurd h (by simp)
        · rw [hgo] at h
          obtain ⟨h1, _⟩ := Prod.mk.injEq .. ▸ Option.some.inj h
          subst h1
          exact Or.inr (specIdent_step hc (ih r as hgo))
      · rw [if_neg hlt] at h
        exact absurd h (by simp)

theorem many1_identChunk_sound {s : List Char} {out : List (List Char × Option Char)}
    (h : many1 identChunk s = some ([], out)) : specIdent s = true := by
  unfold many1 at h
  rcases hc : identChunk s with _ | ⟨r, run, u⟩
  · rw [hc] at h
    exact absurd h (by simp)
  · rw [hc] at h
    simp only [] at h
    by_cases hlt : r.length < s.length
    · rw [if_pos hlt] at h
      rcases hgo : many1Go identChunk (r.length + 1) r with _ | ⟨r₂, as⟩
      · rw [hgo] at h
        exact absurd h (by simp)
      · rw [hgo] at h
        obtain ⟨h1, _⟩ := Prod.mk.injEq .. ▸ Option.some.inj h
        subst h1
        exact specIdent_step hc (many1Go_sound (r.length + 1) r as hgo)
    · rw [if_neg hlt] at h
      exact absurd h (by simp)

/-- Completeness of the identifier lexer against the spec shape: on a
spec-shaped identifier followed by any boundary, the lexer consumes exactly
the identifier. -/
theorem alphabetic_w_underscores_complete {s t : List Char} (hs : specIdent s = true)
    (hb : identBoundary t = true) :
    alphabetic_w_underscores (s ++ t) = some (t, s) := by
  obtain ⟨out, hm⟩ := many1_identChunk_complete hs hb
  unfold alphabetic_w_underscores recognize
  rw [hm]
  simp only []
  have hlen : (s ++ t).length - t.length = s.length := by
    simp [List.length_append]
  rw [hlen, List.take_left s t]

/-- Soundness of the identifier lexer: a fully consumed input is
spec-shaped. -/
theorem alphabetic_w_underscores_sound {s : List Char} {x : List Char × List Char}
    (h : all_consuming alphabetic_w_underscores s = some x) : specIdent s = true := by
  rw [all_consuming_eq_some] at h
  obtain ⟨h1, h2⟩ := h
  rcases x with ⟨xr, out⟩
  obtain rfl : xr = [] := h2
  unfold alphabetic_w_underscores recognize at h1
  rcases hm : many1 identChunk s with _ | ⟨r, out'⟩
  · rw [hm] at h1
    exact absurd h1 (by simp)
  · rw [hm] at h1
    obtain ⟨hr, _⟩ := Prod.mk.injEq .. ▸ Option.some.inj h1
    subst hr
    exact many1_identChunk_sound hm

/-- The full characterization: the identifier lexer accepts a complete input
exactly when it is spec-shaped. -/
theorem alphabetic_w_underscores_iff_specIdent (s : List Char) :
    (all_consuming alphabetic_w_underscores s).isSome = specIdent s := by
  rcases h : all_consuming alphabetic_w_underscores s with _ | x
  · rcases hspec : specIdent s with _ | _
    · rfl
    · exfalso
      have hc := @alphabetic_w_underscores_complete s [] hspec rfl
      rw [List.append_nil] at hc
      rw [show all_consuming alphabetic_w_underscores s = some ([], s) by
        rw [all_consuming_eq_some]; exact ⟨hc, rfl⟩] at h
      exact Option.noConfusion h
  · rw [alphabetic_w_underscores_sound h]
    rfl

/-- A leading non-letter (an underscore in particular) makes the lexer fail
outright, before consuming anything. -/
theorem alphabetic_w_underscores_head_not_alpha {c : Char} {t : List Char}
    (hc : c.isAlpha = false) : alphabetic_w_underscores (c :: t) = none := by
  have hchunk : identChunk (c :: t) = none := by
    simp [identChunk, tuple2, take_while1, List.takeWhile_cons, hc]
  simp [alphabetic_w_underscores, recognize, many1, hchunk]

/-- Any spec-shaped identifier, quoted, is accepted as a marker (there is no
registry check anywhere in the parser). -/
theorem marker_accepts_specIdent {s : List Char} (hs : specIdent s = true) :
    marker ('"' :: (s ++ ['"'])) = some ([], s) := by
  unfold marker delimited
  rw [pmap_eq_some]
  refine ⟨[], (['"'], (s, ['"'])), ?_, rfl⟩
  rw [tuple3_eq_some]
  refine ⟨s ++ ['"'], ['"'], ['"'], s, [], ['"'], ?_, ?_, by decide, rfl⟩
  · simp [ptag]
  · exact alphabetic_w_underscores_complete hs (by decide)

/-! ### The claims -/

/-- C1: top-level two-tier rejection.  Whenever the top-level `exprs` parser
succeeds, every operand of the resulting joined expression is a variable
clause (`topClauses`); the bare leaf document `a flows to b` fails `exprs`
and the whole `parse`, while the same text succeeds as a clause-body
fragment (`body`) and inside an enclosing `some` variable clause. -/
theorem claim_C1_top_level_two_tier :
    (∀ fuel s r a, exprs fuel s = some (r, a) → topClauses a = true)
    ∧ exprsTop "a flows to b".toList = none
    ∧ parse "always: a flows to b".toList = none
    ∧ bodyTop "a flows to b".toList =
        some ([], ASTNode.flowsTo "a".toList "b".toList)
    ∧ variable_clauseTop "some x : \"m\" ( a flows to b )".toList =
        some ([], ASTNode.varIntroduction ⟨.some, "x".toList, "m".toList⟩
          (ASTNode.flowsTo "a".toList "b".toList)) := by
  exact ⟨exprs_topClauses, by decide, by decide, by decide, by decide⟩

/-- Witness for C1: a concrete successful top-level parse whose result
satisfies `topClauses`. -/
theorem claim_C1_witness :
    topClauses (ASTNode.varIntroduction ⟨.some, "x".toList, "m".toList⟩
      (ASTNode.flowsTo "a".toList "b".toList)) = true :=
  claim_C1_top_level_two_tier.1 ("some x : \"m\" ( a flows to b )".toList.length + 1)
    "some x : \"m\" ( a flows to b )".toList []
    (ASTNode.varIntroduction ⟨.some, "x".toList, "m".toList⟩
      (ASTNode.flowsTo "a".toList "b".toList)) (by decide)

/-- C2: right-nesting without precedence.  `a flows to b or a flows to c and
b flows to c` parses to `Or(FlowsTo(a,b), And(FlowsTo(a,c), FlowsTo(b,c)))`,
which differs from the left-grouped alternative. -/
theorem claim_C2_right_nesting :
    bodyTop "a flows to b or a flows to c and b flows to c".toList =
      some ([], ASTNode.or (ASTNode.flowsTo "a".toList "b".toList)
        (ASTNode.and (ASTNode.flowsTo "a".toList "c".toList)
          (ASTNode.flowsTo "b".toList "c".toList)))
    ∧ ASTNode.or (ASTNode.flowsTo "a".toList "b".toList)
        (ASTNode.and (ASTNode.flowsTo "a".toList "c".toList)
          (ASTNode.flowsTo "b".toList "c".toList)) ≠
      ASTNode.and (ASTNode.or (ASTNode.flowsTo "a".toList "b".toList)
          (ASTNode.flowsTo "a".toList "c".toList))
        (ASTNode.flowsTo "b".toList "c".toList) := by
  exact ⟨by decide, by decide⟩

/-- C3: through-disambiguation with negative lookahead.  Every success of
`flows_to_or_through_expr` either comes from `through_expr`, or comes from
the bare `flows_to_expr` with `through_expr` failing and the remainder not
beginning with the `through` keyword; and a malformed checkpoint after
`through` (here the digit `5`) fails the whole parser rather than being
silently discarded. -/
theorem claim_C3_through_disambiguation :
    (∀ s r a, flows_to_or_through_expr s = some (r, a) →
      (through_expr s = some (r, a) ∧ ∃ x y z, a = ASTNode.through x y z) ∨
        (through_expr s = none ∧ flows_to_expr s = some (r, a) ∧ through r = none ∧
          ∃ x y, a = ASTNode.flowsTo x y))
    ∧ flows_to_or_through_expr "a flows to b through 5".toList = none := by
  exact ⟨fun s r a h => flows_to_or_through_cases h, by decide⟩

/-- Witness for C3 at the input `a flows to b`. -/
theorem claim_C3_witness :
    (through_expr "a flows to b".toList =
        some ([], ASTNode.flowsTo "a".toList "b".toList) ∧
      ∃ x y z, ASTNode.flowsTo "a".toList "b".toList = ASTNode.through x y z) ∨
      (through_expr "a flows to b".toList = none ∧
        flows_to_expr "a flows to b".toList =
          some ([], ASTNode.flowsTo "a".toList "b".toList) ∧
        through ([] : List Char) = none ∧
        ∃ x y, ASTNode.flowsTo "a".toList "b".toList = ASTNode.flowsTo x y) :=
  claim_C3_through_disambiguation.1 "a flows to b".toList []
    (ASTNode.flowsTo "a".toList "b".toList) (by decide)

/-- C4: quantifier semantics of the evaluator (modelled from spec §4.6).
An `All` clause is the conjunction over the candidate set, short-circuiting
to `Violated` at the first failing candidate, which becomes the witness; a
`Some` clause is the disjunction, short-circuiting to `Satisfied` at the
first succeeding candidate, and is `Violated` reporting the variable and
marker when the candidate set is exhausted with none succeeding. -/
theorem claim_C4_quantifier_semantics :
    ∀ (ctx : EvalCtx) (fuel : Nat) (env : List (Variable × GraphNode)) (v : Variable)
      (m : Marker) (bd : ASTNode),
      (eval ctx (fuel + 1) env (.varIntroduction ⟨.all, v, m⟩ bd) = some .satisfied ↔
        ∀ c ∈ ctx.markedNodes m, eval ctx fuel ((v, c) :: env) bd = some .satisfied)
      ∧ (∀ w, eval ctx (fuel + 1) env (.varIntroduction ⟨.all, v, m⟩ bd) =
            some (.violated w) →
          ∃ l₁ c l₂, ctx.markedNodes m = l₁ ++ c :: l₂ ∧
            (∀ x ∈ l₁, eval ctx fuel ((v, x) :: env) bd = some .satisfied) ∧
            (∃ w', eval ctx fuel ((v, c) :: env) bd = some (.violated w')) ∧
            w = .failingNode c)
      ∧ (eval ctx (fuel + 1) env (.varIntroduction ⟨.some, v, m⟩ bd) = some .satisfied ↔
          ∃ l₁ c l₂, ctx.markedNodes m = l₁ ++ c :: l₂ ∧
            (∀ x ∈ l₁, ∃ w, eval ctx fuel ((v, x) :: env) bd = some (.violated w)) ∧
            eval ctx fuel ((v, c) :: env) bd = some .satisfied)
      ∧ ((∀ c ∈ ctx.markedNodes m, ∃ w,
            eval ctx fuel ((v, c) :: env) bd = some (.violated w)) →
          eval ctx (fuel + 1) env (.varIntroduction ⟨.some, v, m⟩ bd) =
            some (.violated (.noCandidate v m))) := by
  intro ctx fuel env v m bd
  refine ⟨?_, ?_, ?_, ?_⟩
  · exact runAll_satisfied_iff (fun c => eval ctx fuel ((v, c) :: env) bd) (ctx.markedNodes m)
  · exact fun w h => runAll_violated h
  · exact runSome_satisfied_iff v m (fun c => eval ctx fuel ((v, c) :: env) bd)
      (ctx.markedNodes m)
  · exact fun h => runSome_exhausted h

/-- A tiny concrete flow-graph context for the C4 witness: marker `m` tags
candidates `1, 2, 3`, and only node `2` data-flows to node `9`. -/
def ctxC4 : EvalCtx where
  markedNodes := fun m => if m = "m".toList then [1, 2, 3] else []
  flowsToData := fun a b => decide (a = 2 ∧ b = 9)
  ctrlInfluence := fun _ _ => false
  causallyBetween := fun _ _ _ => false

/-- Witness for C4 on `ctxC4`: the `Some` clause is satisfied (only the
second candidate succeeds), and a violated `All` clause decomposes into a
satisfied prefix, a first failing candidate, and that candidate as the
witness. -/
theorem claim_C4_witness :
    eval ctxC4 2 [("w".toList, 9)]
      (.varIntroduction ⟨.some, "v".toList, "m".toList⟩
        (.flowsTo "v".toList "w".toList)) = some .satisfied
    ∧ ∃ l₁ c l₂, ctxC4.markedNodes "m".toList = l₁ ++ c :: l₂ ∧
        (∀ x ∈ l₁, eval ctxC4 1 (("v".toList, x) :: [("w".toList, 9)])
          (.flowsTo "v".toList "w".toList) = some .satisfied) ∧
        (∃ w', eval ctxC4 1 (("v".toList, c) :: [("w".toList, 9)])
          (.flowsTo "v".toList "w".toList) = some (.violated w')) ∧
        Witness.failingNode 1 = .failingNode c := by
  constructor
  · refine (claim_C4_quantifier_semantics ctxC4 1 [("w".toList, 9)] "v".toList "m".toList
      (.flowsTo "v".toList "w".toList)).2.2.1.mpr ⟨[1], 2, [3], by decide, ?_, by decide⟩
    intro x hx
    have hx1 : x = 1 := by simpa using hx
    subst hx1
    exact ⟨.failingNode 1, by decide⟩
  · exact (claim_C4_quantifier_semantics ctxC4 1 [("w".toList, 9)] "v".toList "m".toList
      (.flowsTo "v".toList "w".toList)).2.1 (.failingNode 1) (by decide)

/-- C5: whole-input consumption.  A successful `parse` always has an empty
remainder; whenever the inner `scope`+`exprs` pipeline leaves unconsumed
text, the `all_consuming` wrapper turns the parse into an error; and a
concrete policy with trailing text fails while the same policy without it
succeeds. -/
theorem claim_C5_whole_input :
    (∀ s r p, parse s = some (r, p) → r = [])
    ∧ (∀ fuel s r p, scope_exprs fuel s = some (r, p) → r ≠ [] →
        all_consuming (scope_exprs fuel) s = none)
    ∧ parse "always:some x:\"m\"(a flows to b)extra".toList = none
    ∧ (parse "always:some x:\"m\"(a flows to b)".toList).isSome = true := by
  exact ⟨fun s r p h => parse_consumes_all h,
    fun fuel s r p h hr => parse_rejects_trailing h hr, by decide, by decide⟩

/-- Witness for C5: the concrete trailing-text policy, where the inner
pipeline succeeds leaving `extra`, is rejected by the `all_consuming`
wrapper. -/
theorem claim_C5_witness :
    all_consuming (scope_exprs ("always:some x:\"m\"(a flows to b)extra".toList.length + 1))
      "always:some x:\"m\"(a flows to b)extra".toList = none :=
  claim_C5_whole_input.2.1 ("always:some x:\"m\"(a flows to b)extra".toList.length + 1)
    "always:some x:\"m\"(a flows to b)extra".toList "extra".toList
    ⟨.always, .varIntroduction ⟨.some, "x".toList, "m".toList⟩
      (.flowsTo "a".toList "b".toList)⟩ (by decide) (by decide)

/-- C6: `Sometimes` is syntactically accepted but unsupported.  The `scope`
parser accepts both prefixes, and `compile_policy_scope` (whose template
rendering is abstracted as `render`) produces output for `Always` but an
unsupported-feature error — the `todo!()` panic — for `Sometimes`. -/
theorem claim_C6_sometimes_unsupported :
    scope "always:".toList = some ([], PolicyScope.always)
    ∧ scope "sometimes:".toList = some ([], PolicyScope.sometimes)
    ∧ (∀ render bindings, compile_policy_scope render bindings PolicyScope.sometimes =
        Except.error CompileError.unsupported)
    ∧ (∀ render bindings, compile_policy_scope render bindings PolicyScope.always =
        Except.ok (render bindings)) := by
  exact ⟨by decide, by decide, fun _ _ => rfl, fun _ _ => rfl⟩

/-- C7: identifier lexical rules.  The set of complete inputs accepted by
`alphabetic_w_underscores` is exactly the spec shape (letter runs separated
by single underscores, trailing underscore allowed); any input starting with
a non-letter (a leading underscore in particular) fails outright; a trailing
underscore is accepted, and two consecutive underscores are rejected as a
complete identifier (matching the repository's own test, which checks this
under `all_consuming`). -/
theorem claim_C7_identifier_lexical :
    (∀ s, (all_consuming alphabetic_w_underscores s).isSome = specIdent s)
    ∧ (∀ c t, c.isAlpha = false → alphabetic_w_underscores (c :: t) = none)
    ∧ alphabetic_w_underscores "hello_world_".toList =
        some ([], "hello_world_".toList)
    ∧ all_consuming alphabetic_w_underscores "multiple__underscores".toList = none
    ∧ alphabetic_w_underscores "_hello_world".toList = none := by
  exact ⟨alphabetic_w_underscores_iff_specIdent,
    fun c t hc => alphabetic_w_underscores_head_not_alpha hc, by decide, by decide, by decide⟩

/-- Witness for C7: the leading-underscore case via the general lemma, and
the characterization evaluated at a concrete identifier. -/
theorem claim_C7_witness :
    alphabetic_w_underscores ('_' :: "hello".toList) = none
    ∧ (all_consuming alphabetic_w_underscores "ab_c".toList).isSome =
        specIdent "ab_c".toList :=
  ⟨claim_C7_identifier_lexical.2.1 '_' "hello".toList (by decide),
   claim_C7_identifier_lexical.1 "ab_c".toList⟩

/-- Counterexample to C8 as stated: the marker parser does not accept every
string — quoted content must be identifier-shaped, so `"a b"` (a space) and
`"1"` (a digit) are parse errors. -/
theorem claim_C8_counterexample :
    marker "\"a b\"".toList = none ∧ marker "\"1\"".toList = none := by
  exact ⟨by decide, by decide⟩

/-- C8 (amended): the front end accepts any identifier-shaped string as a
marker — there is no registry validation, so marker/tag mismatches can only
surface at evaluation time — but content that is not identifier-shaped is a
parse error. -/
theorem claim_C8_amended_marker :
    (∀ s, specIdent s = true → marker ('"' :: (s ++ ['"'])) = some ([], s))
    ∧ marker "\"community_delete_check\"".toList =
        some ([], "community_delete_check".toList) := by
  exact ⟨fun s hs => marker_accepts_specIdent hs, by decide⟩

/-- Witness for C8 at the identifier `ab_c`. -/
theorem claim_C8_witness :
    marker ('"' :: ("ab_c".toList ++ ['"'])) = some ([], "ab_c".toList) :=
  claim_C8_amended_marker.1 "ab_c".toList (by decide)

/-- C9: after a successful `through` parse no lookahead guards further
chained `through`s: on `a flows to b through c through d` the flow-relation
parser succeeds with `Through(a, b, c)` leaving ` through d` unconsumed
(also through `body`), and the leftover only becomes an error under an
`all_consuming` wrapper. -/
theorem claim_C9_chained_through :
    flows_to_or_through_expr "a flows to b through c through d".toList =
      some (" through d".toList, ASTNode.through "a".toList "b".toList "c".toList)
    ∧ bodyTop "a flows to b through c through d".toList =
        some (" through d".toList, ASTNode.through "a".toList "b".toList "c".toList)
    ∧ all_consuming (body ("a flows to b through c through d".toList.length + 1))
        "a flows to b through c through d".toList = none := by
  exact ⟨by decide, by decide, by decide⟩

/-- C10: there are no reserved words for variables — the variable parser
accepts the language's own keywords as variable names, and
`through flows to all` parses as `FlowsTo(through, all)`. -/
theorem claim_C10_keywords_as_variables :
    pvariable "through".toList = some ([], "through".toList)
    ∧ pvariable "and".toList = some ([], "and".toList)
    ∧ pvariable "or".toList = some ([], "or".toList)
    ∧ pvariable "implies".toList = some ([], "implies".toList)
    ∧ pvariable "some".toList = some ([], "some".toList)
    ∧ pvariable "all".toList = some ([], "all".toList)
    ∧ pvariable "always".toList = some ([], "always".toList)
    ∧ pvariable "sometimes".toList = some ([], "sometimes".toList)
    ∧ flows_to_expr "through flows to all".toList =
        some ([], ASTNode.flowsTo "through".toList "all".toList) := by
  decide

end Paralegal
